import Mathlib

/-!
Verification of the string-value kernel (generic/tclStringObj.c) against its
natural-language specification.  The C code is shallowly embedded: byte
buffers are `List Nat` (each element one byte), fixed-width code units are
`List Nat` (each element one 16-bit Tcl_UniChar), machine integers are `Int`
with explicit two's-complement reductions, and fallible or panicking code
returns `Except`.  Helper routines that live in tclUtf.c (not part of the
sources under verification) are modelled from the spec and marked as such.
-/

namespace Tcl

/-! ## Byte-level UTF model (Encoding Bridge)

The decoder below is modelled from the spec: tclUtf.c is not among the
sources, only its callers are.  It follows the documented Tcl variable-width
encoding with TCL_UTF_MAX = 3 (16-bit Tcl_UniChar): a byte below 0xC0 always
stands alone (ASCII or a stray trail byte), 0xC0..0xDF starts a two-byte
character when followed by one continuation byte, 0xE0..0xEF starts a
three-byte character when followed by two continuation bytes, and anything
else falls back to a single-byte character.  A fuel argument (always called
with fuel = list length, which suffices because every step consumes at least
one byte) keeps the recursion structural so that concrete instances reduce
inside the kernel. -/

/-- One byte is a continuation byte: (b & 0xC0) == 0x80. -/
def isCont (b : Nat) : Bool := decide (0x80 ≤ b ∧ b < 0xC0)

/-- Modelled from the spec: scan a byte sequence into (character, bytes
consumed) pairs, as Tcl_UtfToUniChar (tclUtf.c, absent from the sources)
does when iterated over a whole string. -/
def utfScanAux : Nat → List Nat → List (Nat × Nat)
  | 0, _ => []
  | _ + 1, [] => []
  | fuel + 1, b :: rest =>
    if b < 0xC0 then (b, 1) :: utfScanAux fuel rest
    else if b < 0xE0 then
      match rest with
      | b1 :: rest1 =>
        if isCont b1 then
          ((b % 0x20) * 0x40 + b1 % 0x40, 2) :: utfScanAux fuel rest1
        else (b, 1) :: utfScanAux fuel (b1 :: rest1)
      | [] => [(b, 1)]
    else if b < 0xF0 then
      match rest with
      | b1 :: b2 :: rest2 =>
        if isCont b1 && isCont b2 then
          ((b % 0x10) * 0x1000 + (b1 % 0x40) * 0x40 + b2 % 0x40, 3) ::
            utfScanAux fuel rest2
        else (b, 1) :: utfScanAux fuel (b1 :: b2 :: rest2)
      | _ => (b, 1) :: utfScanAux fuel rest
    else (b, 1) :: utfScanAux fuel rest

/-- Full scan of a byte sequence. -/
def utfScan (l : List Nat) : List (Nat × Nat) := utfScanAux l.length l

/-- Modelled from the spec: the character sequence denoted by a byte
sequence (full decode). -/
def utfDecode (l : List Nat) : List Nat := (utfScan l).map Prod.fst

/-- Modelled from the spec: Tcl_NumUtfChars over the whole sequence — the
reference character count obtained by decoding everything. -/
def tclNumUtfChars (l : List Nat) : Nat := (utfDecode l).length

theorem utfScanAux_fuel :
    ∀ (f1 f2 : Nat) (l : List Nat), l.length ≤ f1 → l.length ≤ f2 →
      utfScanAux f1 l = utfScanAux f2 l := by
  intro f1
  induction f1 with
  | zero =>
    intro f2 l h1 _
    have hl : l = [] := List.eq_nil_of_length_eq_zero (Nat.le_zero.mp h1)
    subst hl
    cases f2 <;> rfl
  | succ f1 ih =>
    intro f2 l h1 h2
    cases l with
    | nil => cases f2 <;> rfl
    | cons b rest =>
      cases f2 with
      | zero => simp at h2
      | succ f2 =>
        have hr1 : rest.length ≤ f1 := by simpa using h1
        have hr2 : rest.length ≤ f2 := by simpa using h2
        simp only [utfScanAux]
        by_cases hb : b < 0xC0
        · simp only [if_pos hb, ih f2 rest hr1 hr2]
        · simp only [if_neg hb]
          by_cases hb2 : b < 0xE0
          · simp only [if_pos hb2]
            cases rest with
            | nil => rfl
            | cons b1 rest1 =>
              have h11 : rest1.length ≤ f1 := by
                simp at hr1; omega
              have h12 : rest1.length ≤ f2 := by
                simp at hr2; omega
              by_cases hc : isCont b1
              · simp only [hc, if_pos, ih f2 rest1 h11 h12]
              · simp [hc, ih f2 (b1 :: rest1) hr1 hr2]
          · simp only [if_neg hb2]
            by_cases hb3 : b < 0xF0
            · simp only [if_pos hb3]
              cases rest with
              | nil => simp [ih f2 [] (by simp) (by simp)]
              | cons b1 rest1 =>
                cases rest1 with
                | nil => simp [ih f2 [b1] (by simp at hr1 ⊢; omega)
                    (by simp at hr2 ⊢; omega)]
                | cons b2 rest2 =>
                  have h21 : rest2.length ≤ f1 := by simp at hr1; omega
                  have h22 : rest2.length ≤ f2 := by simp at hr2; omega
                  by_cases hc : isCont b1 && isCont b2
                  · simp only [hc, if_pos, ih f2 rest2 h21 h22]
                  · simp [hc, ih f2 (b1 :: b2 :: rest2) hr1 hr2]
            · simp only [if_neg hb3, ih f2 rest hr1 hr2]

theorem utfScan_cons_lt (b : Nat) (rest : List Nat) (hb : b < 0xC0) :
    utfScan (b :: rest) = (b, 1) :: utfScan rest := by
  simp [utfScan, utfScanAux, hb]

theorem utfScan_cons2 (b b1 : Nat) (rest : List Nat)
    (hb0 : ¬ b < 0xC0) (hb : b < 0xE0) (hc : isCont b1 = true) :
    utfScan (b :: b1 :: rest) =
      ((b % 0x20) * 0x40 + b1 % 0x40, 2) :: utfScan rest := by
  simp only [utfScan, List.length_cons, utfScanAux, if_neg hb0, if_pos hb, hc,
    if_pos]
  rw [utfScanAux_fuel (rest.length + 1) rest.length rest (by omega) le_rfl]

theorem utfScan_cons3 (b b1 b2 : Nat) (rest : List Nat)
    (hb0 : ¬ b < 0xC0) (hb1 : ¬ b < 0xE0) (hb : b < 0xF0)
    (hc1 : isCont b1 = true) (hc2 : isCont b2 = true) :
    utfScan (b :: b1 :: b2 :: rest) =
      ((b % 0x10) * 0x1000 + (b1 % 0x40) * 0x40 + b2 % 0x40, 3) ::
        utfScan rest := by
  simp only [utfScan, List.length_cons, utfScanAux, if_neg hb0, if_neg hb1,
    if_pos hb, hc1, hc2, Bool.and_self, if_pos]
  rw [utfScanAux_fuel (rest.length + 2) rest.length rest (by omega) le_rfl]

theorem utfDecode_cons_lt (rest : List Nat) {b : Nat} (hb : b < 0xC0) :
    utfDecode (b :: rest) = b :: utfDecode rest := by
  simp [utfDecode, utfScan_cons_lt b rest hb]

theorem utfScanAux_length_le :
    ∀ (fuel : Nat) (l : List Nat), (utfScanAux fuel l).length ≤ l.length := by
  intro fuel
  induction fuel with
  | zero => intro l; cases l <;> simp [utfScanAux]
  | succ fuel ih =>
    intro l
    cases l with
    | nil => simp [utfScanAux]
    | cons b rest =>
      simp only [utfScanAux]
      by_cases hb : b < 0xC0
      · simp only [if_pos hb, List.length_cons]
        exact Nat.succ_le_succ (ih rest)
      · simp only [if_neg hb]
        by_cases hb2 : b < 0xE0
        · simp only [if_pos hb2]
          cases rest with
          | nil => simp
          | cons b1 rest1 =>
            by_cases hc : isCont b1
            · simp only [hc, if_pos, List.length_cons]
              have := ih rest1
              omega
            · simp only [hc, if_neg, List.length_cons]
              have := ih (b1 :: rest1)
              simp at this ⊢
              omega
        · simp only [if_neg hb2]
          by_cases hb3 : b < 0xF0
          · simp only [if_pos hb3]
            cases rest with
            | nil =>
              have := ih ([] : List Nat)
              simpa using this
            | cons b1 rest1 =>
              cases rest1 with
              | nil =>
                have := ih [b1]
                simp at this ⊢
                omega
              | cons b2 rest2 =>
                by_cases hc : isCont b1 && isCont b2
                · simp only [hc, if_pos, List.length_cons]
                  have := ih rest2
                  omega
                · simp only [hc, if_neg, List.length_cons]
                  have := ih (b1 :: b2 :: rest2)
                  simp at this ⊢
                  omega
          · simp only [if_neg hb3, List.length_cons]
            exact Nat.succ_le_succ (ih rest)

theorem utfDecode_length_le (l : List Nat) :
    (utfDecode l).length ≤ l.length := by
  simpa [utfDecode, utfScan] using utfScanAux_length_le l.length l

/-- A sequence whose bytes are all below the multi-unit lead threshold
decodes to itself, one character per byte. -/
theorem utfDecode_all_lt (l : List Nat) (h : ∀ x ∈ l, x < 0xC0) :
    utfDecode l = l := by
  induction l with
  | nil => rfl
  | cons b rest ih =>
    rw [utfDecode_cons_lt rest (h b (by simp))]
    rw [ih (fun x hx => h x (by simp [hx]))]

/-- Character-length fast path of Tcl_GetCharLength (lines 416-419):
the longest leading run of bytes below 0xC0. -/
def asciiRun : List Nat → Nat
  | [] => 0
  | b :: rest => if b < 0xC0 then asciiRun rest + 1 else 0

/-- Character count as computed by Tcl_GetCharLength on first use
(lines 403-424): count the leading single-unit run without decoding, then
decode only the remaining suffix. -/
def fastCharLength (bytes : List Nat) : Nat :=
  let run := asciiRun bytes
  run + (if run < bytes.length then tclNumUtfChars (bytes.drop run) else 0)

theorem asciiRun_le (l : List Nat) : asciiRun l ≤ l.length := by
  induction l with
  | nil => simp [asciiRun]
  | cons b rest ih =>
    simp only [asciiRun, List.length_cons]
    split <;> omega

/-- Helper shared by the claims: the fast-path count equals the reference
count of the full decode. -/
theorem fastCharLength_eq (bytes : List Nat) :
    fastCharLength bytes = tclNumUtfChars bytes := by
  induction bytes with
  | nil => simp [fastCharLength, asciiRun, tclNumUtfChars, utfDecode, utfScan,
      utfScanAux]
  | cons b rest ih =>
    by_cases hb : b < 0xC0
    · have hrun : asciiRun (b :: rest) = asciiRun rest + 1 := by
        simp [asciiRun, hb]
      have hcount : tclNumUtfChars (b :: rest) = tclNumUtfChars rest + 1 := by
        simp [tclNumUtfChars, utfDecode_cons_lt rest hb]
      simp only [fastCharLength, hrun, hcount, List.length_cons,
        List.drop_succ_cons] at ih ⊢
      by_cases hlt : asciiRun rest < rest.length
      · rw [if_pos (by omega : asciiRun rest + 1 < rest.length + 1)]
        rw [if_pos hlt] at ih
        omega
      · rw [if_neg (by omega : ¬ asciiRun rest + 1 < rest.length + 1)]
        rw [if_neg hlt] at ih
        omega
    · have hrun : asciiRun (b :: rest) = 0 := by simp [asciiRun, hb]
      simp [fastCharLength, hrun]

/-- Modelled from the spec: a byte sequence is well-formed (a concatenation
of complete one-, two- or three-byte character encodings, the system
invariant every stored byte form satisfies). -/
def wellFormedUtf : List Nat → Bool
  | [] => true
  | [b] => decide (1 ≤ b ∧ b < 0x80)
  | b :: b1 :: rest =>
    if 1 ≤ b ∧ b < 0x80 then wellFormedUtf (b1 :: rest)
    else if 0xC0 ≤ b ∧ b < 0xE0 then isCont b1 && wellFormedUtf rest
    else if 0xE0 ≤ b ∧ b < 0xF0 then
      match rest with
      | b2 :: rest2 => isCont b1 && isCont b2 && wellFormedUtf rest2
      | [] => false
    else false

theorem wellFormedUtf_cons_cons (b b1 : Nat) (rest : List Nat) :
    wellFormedUtf (b :: b1 :: rest) =
      (if 1 ≤ b ∧ b < 0x80 then wellFormedUtf (b1 :: rest)
       else if 0xC0 ≤ b ∧ b < 0xE0 then isCont b1 && wellFormedUtf rest
       else if 0xE0 ≤ b ∧ b < 0xF0 then
         (match rest with
          | b2 :: rest2 => isCont b1 && isCont b2 && wellFormedUtf rest2
          | [] => false)
       else false) := by
  cases rest <;> rfl

/-- On a well-formed sequence, character count equal to byte count forces
every byte to be a plain single-unit character below 0x80. -/
theorem wellFormed_count_ascii :
    ∀ l : List Nat, wellFormedUtf l = true →
      (utfDecode l).length = l.length → ∀ x ∈ l, x < 0x80 := by
  have H : ∀ (n : Nat) (l : List Nat), l.length ≤ n →
      wellFormedUtf l = true → (utfDecode l).length = l.length →
      ∀ x ∈ l, x < 0x80 := by
    intro n
    induction n with
    | zero =>
      intro l hl _ _ x hx
      have : l = [] := List.eq_nil_of_length_eq_zero (Nat.le_zero.mp hl)
      subst this; simp at hx
    | succ n ih =>
      intro l hl hwf hlen x hx
      match l with
      | [] => simp at hx
      | [b] =>
        have hb : decide (1 ≤ b ∧ b < 0x80) = true := hwf
        simp only [decide_eq_true_eq] at hb
        simp only [List.mem_singleton] at hx
        omega
      | b :: b1 :: rest =>
        rw [wellFormedUtf_cons_cons b b1 rest] at hwf
        by_cases h1 : 1 ≤ b ∧ b < 0x80
        · rw [if_pos h1] at hwf
          rw [utfDecode_cons_lt (b1 :: rest) (by omega)] at hlen
          simp only [List.length_cons, Nat.add_right_cancel_iff] at hlen
          rcases List.mem_cons.mp hx with hx | hx
          · omega
          · exact ih (b1 :: rest) (by simp at hl ⊢; omega) hwf hlen x hx
        · rw [if_neg h1] at hwf
          by_cases h2 : 0xC0 ≤ b ∧ b < 0xE0
          · rw [if_pos h2] at hwf
            simp only [Bool.and_eq_true] at hwf
            rw [show utfDecode (b :: b1 :: rest)
                = ((b % 0x20) * 0x40 + b1 % 0x40) :: utfDecode rest by
              simp [utfDecode, utfScan_cons2 b b1 rest (by omega) (by omega)
                hwf.1]] at hlen
            have := utfDecode_length_le rest
            simp only [List.length_cons] at hlen
            omega
          · rw [if_neg h2] at hwf
            by_cases h3 : 0xE0 ≤ b ∧ b < 0xF0
            · rw [if_pos h3] at hwf
              match rest with
              | [] => exact absurd hwf (by simp)
              | b2 :: rest2 =>
                simp only [Bool.and_eq_true] at hwf
                rw [show utfDecode (b :: b1 :: b2 :: rest2)
                    = ((b % 0x10) * 0x1000 + (b1 % 0x40) * 0x40 + b2 % 0x40)
                        :: utfDecode rest2 by
                  simp [utfDecode, utfScan_cons3 b b1 b2 rest2 (by omega)
                    (by omega) (by omega) hwf.1.1 hwf.1.2]] at hlen
                have := utfDecode_length_le rest2
                simp only [List.length_cons] at hlen
                omega
            · rw [if_neg h3] at hwf
              exact absurd hwf (by simp)
  exact fun l => H l.length l le_rfl

/-- Claim C3: the character length computed on first use — counting the
longest leading run of bytes below the multi-unit lead-marker threshold
without decoding and fully decoding only the remaining suffix — equals the
reference character count obtained by decoding the entire sequence. -/
theorem charLength_fast_path_eq_reference (bytes : List Nat) :
    fastCharLength bytes = tclNumUtfChars bytes :=
  fastCharLength_eq bytes

/-! ## The String internal representation (Dual-Representation Value)

Mirror of `struct String` (lines 96-113) together with the byte
representation held on the Tcl_Obj itself (`objPtr->bytes` /
`objPtr->length`).  `bytes` is the logical byte content (its length is
`objPtr->length`), `bytesValid` says whether the byte rep is present
(`objPtr->bytes != NULL`); a NULL byte rep keeps the stale list around but
it is never read.  `numChars = -1` means the count is unknown.  Buffer
bytes whose contents the C code leaves undefined are modelled as 0. -/

structure StringSt where
  bytes : List Nat
  bytesValid : Bool
  numChars : Int
  hasUnicode : Bool
  unicode : List Nat
  allocated : Nat
  uallocated : Nat
deriving DecidableEq, Repr

/-- STRING_UALLOC (line 115): space in bytes for that many Tcl_UniChars
(sizeof(Tcl_UniChar) = 2 under the default UCS-2 configuration). -/
def STRING_UALLOC (numChars : Nat) : Nat := numChars * 2

/-- TCL_GROWTH_MIN_ALLOC (line 190). -/
def TCL_GROWTH_MIN_ALLOC : Nat := 1024

/-- INT_MAX of the 32-bit int type. -/
def INT_MAX : Nat := 2147483647

/-- The visible character sequence of a value: the authoritative
representation is the fixed-width one when present, else the decoded byte
form. -/
def StringSt.chars (st : StringSt) : List Nat :=
  if st.hasUnicode then st.unicode else utfDecode st.bytes

/-- ExtendUnicodeRepWithString (lines 2708-2765): decode `bytes` and place
the characters after the `numOrigChars` already present (with
numAppendChars = -1 meaning "count them by decoding").  The uallocated
doubling (lines 2744-2752) is carried along. -/
def extendUnicodeRepWithString (st : StringSt) (bytes : List Nat)
    (numAppendChars : Int) : StringSt :=
  let numOrigChars : Int := if st.hasUnicode then st.numChars else 0
  let nApp : Int :=
    if numAppendChars = -1 then (tclNumUtfChars bytes : Int)
    else numAppendChars
  let needed : Int := numOrigChars + nApp
  let uneed : Nat := STRING_UALLOC needed.toNat
  let ualloc : Nat :=
    if uneed > st.uallocated then
      if st.uallocated > 0 then
        if uneed ≤ STRING_UALLOC INT_MAX / 2 then uneed * 2
        else STRING_UALLOC INT_MAX
      else uneed
    else st.uallocated
  { st with
    hasUnicode := needed > 0
    numChars := needed
    uallocated := ualloc
    unicode := st.unicode.take numOrigChars.toNat ++ utfDecode bytes }

/-- FillUnicodeRep (lines 2698-2706). -/
def fillUnicodeRep (st : StringSt) : StringSt :=
  extendUnicodeRepWithString st st.bytes st.numChars

/-- Tcl_GetCharLength (lines 355-452) on a value that already has a String
internal rep and a live byte rep (the pure-byte-array shortcut and
SetStringFromAny conversion are outside this model).  Returns the count and
the possibly updated state. -/
def tclGetCharLength (st : StringSt) : Int × StringSt :=
  if st.numChars = -1 then
    let n : Nat := fastCharLength st.bytes
    let st1 := { st with numChars := (n : Int) }
    if (n : Int) = (st.bytes.length : Int) then
      ((n : Int), { st1 with hasUnicode := false })
    else ((n : Int), fillUnicodeRep st1)
  else (st.numChars, st)

/-- Claim C5: computing the character length of a value whose byte form is
all single-unit characters leaves the wide representation absent and caches
charCount = byte length; the wide form is materialized by this computation
only when some character occupies more than one encoding unit. -/
theorem getCharLength_single_unit (st : StringSt)
    (hFirst : st.numChars = -1) :
    (tclNumUtfChars st.bytes = st.bytes.length →
      (tclGetCharLength st).2.hasUnicode = false ∧
        (tclGetCharLength st).2.numChars = (st.bytes.length : Int)) ∧
    ((tclGetCharLength st).2.hasUnicode = true →
      tclNumUtfChars st.bytes ≠ st.bytes.length) := by
  constructor
  · intro hall
    have hfast : fastCharLength st.bytes = st.bytes.length := by
      rw [fastCharLength_eq]; exact hall
    simp [tclGetCharLength, hFirst, hfast]
  · intro hwide
    intro hall
    have hfast : fastCharLength st.bytes = st.bytes.length := by
      rw [fastCharLength_eq]; exact hall
    simp [tclGetCharLength, hFirst, hfast] at hwide

/-- Witness for C5 at a concrete two-byte ASCII value. -/
theorem getCharLength_single_unit_witness :
    let st : StringSt :=
      ⟨[97, 98], true, -1, false, [], 2, 0⟩
    tclNumUtfChars st.bytes = st.bytes.length ∧
      (tclGetCharLength st).2.hasUnicode = false ∧
      (tclGetCharLength st).2.numChars = (st.bytes.length : Int) :=
  ⟨by decide,
    (getCharLength_single_unit ⟨[97, 98], true, -1, false, [], 2, 0⟩
      rfl).1 (by decide)⟩

/-! ## Set-length entry points (strict and attempt) -/

/-- The fatal contract / resource errors raised through Tcl_Panic. -/
inductive TclPanic
  | negLength
  | sharedObj
  | maxSize
deriving DecidableEq, Repr

/-- Common body of Tcl_SetObjLength / Tcl_AttemptSetObjLength after the
guards (lines 799-866 and 912-988): grow the live buffer if needed,
truncate or extend the logical content, and invalidate the peer
representation.  Buffer contents the C code leaves undefined are modelled
as 0. -/
def setObjLengthBody (st : StringSt) (len : Nat) : StringSt :=
  let st :=
    if len > st.allocated ∧ (st.bytesValid ∨ st.hasUnicode = false) then
      { st with allocated := len, hasUnicode := false }
    else st
  if st.bytesValid then
    { st with
      bytes := st.bytes.take len ++ List.replicate (len - st.bytes.length) 0
      numChars := -1
      hasUnicode := false }
  else
    { st with
      uallocated := max st.uallocated (STRING_UALLOC len)
      numChars := (len : Int)
      hasUnicode := decide (len > 0)
      unicode := st.unicode.take len ++ List.replicate (len - st.unicode.length) 0
      allocated := 0 }

/-- Tcl_SetObjLength (lines 777-867): negative length and shared object are
fatal contract violations; the strict allocator cannot fail. -/
def tclSetObjLength (shared : Bool) (st : StringSt) (length : Int) :
    Except TclPanic StringSt :=
  if length < 0 then .error .negLength
  else if shared then .error .sharedObj
  else .ok (setObjLengthBody st length.toNat)

/-- Whether a set-length request must grow one of the buffers (the only
case in which Tcl_AttemptSetObjLength performs an allocation that can
fail). -/
def setObjLengthNeedsAlloc (st : StringSt) (len : Nat) : Bool :=
  decide ((len > st.allocated ∧ (st.bytesValid ∨ st.hasUnicode = false)) ∨
    (st.bytesValid = false ∧ STRING_UALLOC len > st.uallocated))

/-- Tcl_AttemptSetObjLength (lines 892-990): negative length returns 0 (a
recoverable failure result), shared object still panics; `allocOk` is the
attempt-allocator oracle — on allocation failure the function returns 0
with the value untouched. -/
def tclAttemptSetObjLength (shared : Bool) (st : StringSt) (length : Int)
    (allocOk : Bool) : Except TclPanic (Bool × StringSt) :=
  if length < 0 then .ok (false, st)
  else if shared then .error .sharedObj
  else if ¬allocOk ∧ setObjLengthNeedsAlloc st length.toNat then
    .ok (false, st)
  else .ok (true, setObjLengthBody st length.toNat)

/-- Counterexample for claim C9: on the attempt entry point a negative
requested length is NOT a process-terminating contract violation — it is
silently downgraded to the recoverable failure result 0 with the value
unchanged. -/
theorem attemptSetObjLength_neg_not_fatal :
    tclAttemptSetObjLength false ⟨[97], true, 1, false, [], 1, 0⟩ (-1) true
      = .ok (false, ⟨[97], true, 1, false, [], 1, 0⟩) := rfl

/-- Claim C9 (amended): a negative requested length panics on the strict
entry point, while the attempt entry point returns the failure result 0 and
leaves the value unmodified. -/
theorem setObjLength_negative (shared : Bool) (st : StringSt) (length : Int)
    (allocOk : Bool) (hneg : length < 0) :
    tclSetObjLength shared st length = .error .negLength ∧
      tclAttemptSetObjLength shared st length allocOk = .ok (false, st) := by
  constructor
  · simp [tclSetObjLength, hneg]
  · simp [tclAttemptSetObjLength, hneg]

/-- Witness for the amended C9 at a concrete negative length. -/
theorem setObjLength_negative_witness :
    tclSetObjLength false ⟨[97], true, 1, false, [], 1, 0⟩ (-5)
        = .error .negLength ∧
      tclAttemptSetObjLength false ⟨[97], true, 1, false, [], 1, 0⟩ (-5) false
        = .ok (false, ⟨[97], true, 1, false, [], 1, 0⟩) :=
  setObjLength_negative false ⟨[97], true, 1, false, [], 1, 0⟩ (-5) false
    (by decide)

/-! ## Append engine growth (byte path and code-unit path) -/

/-- AppendUtfToUtfRep (lines 1509-1566).  `attemptOk` is the oracle for the
first, doubling allocation attempt (Tcl_AttemptSetObjLength); on its
failure the modest fallback goes through the strict allocator.  The
overflow clamp of lines 1548-1550 is included. -/
def appendUtfToUtfRep (st : StringSt) (app : List Nat) (attemptOk : Bool) :
    Except TclPanic StringSt :=
  if app.length = 0 then .ok st
  else if app.length > INT_MAX - st.bytes.length then .error .maxSize
  else
    let oldLength := st.bytes.length
    let newLength := app.length + oldLength
    let st1 :=
      if newLength > st.allocated then
        if attemptOk then
          { st with allocated := 2 * newLength, hasUnicode := false }
        else
          let limit := INT_MAX - newLength
          let extra := app.length + TCL_GROWTH_MIN_ALLOC
          let growth := if extra > limit then limit else extra
          { st with allocated := newLength + growth, hasUnicode := false }
      else st
    .ok { st1 with
      bytes := st.bytes ++ app
      bytesValid := true
      numChars := -1
      hasUnicode := false }

/-- AppendUnicodeToUnicodeRep (lines 1359-1418).  `attemptOk` is the
oracle for the first, doubling reallocation (stringAttemptRealloc); on
failure the modest fallback (STRING_UALLOC-scaled size plus
TCL_GROWTH_MIN_ALLOC bytes) goes through the strict allocator.
`uallocated` is a byte count, as in the C struct. -/
def appendUnicodeToUnicodeRep (st : StringSt) (app : List Nat)
    (attemptOk : Bool) : StringSt :=
  if app.length = 0 then st
  else
    let numChars := st.numChars.toNat + app.length
    let st1 :=
      if STRING_UALLOC numChars ≥ st.uallocated then
        if attemptOk then
          { st with uallocated := STRING_UALLOC (2 * numChars) }
        else
          { st with uallocated :=
              STRING_UALLOC (numChars + app.length) + TCL_GROWTH_MIN_ALLOC }
      else st
    { st1 with
      unicode := st.unicode.take st.numChars.toNat ++ app
      numChars := (numChars : Int)
      allocated := 0
      bytesValid := false }

/-- Counterexample for claim C2: on the code-unit path the fallback
capacity is NOT current + 2*extra + 1024 code units.  Appending one unit to
a one-unit string with the doubling attempt failing yields uallocated =
STRING_UALLOC(1 + 2*1) + 1024 bytes = 1030 bytes (515 units), not
STRING_UALLOC(1 + 2*1 + 1024) = 2054 bytes as the claim requires. -/
theorem appendUnicode_fallback_not_1024_units :
    (appendUnicodeToUnicodeRep ⟨[], false, 1, true, [65], 0, 4⟩ [66]
        false).uallocated
      ≠ STRING_UALLOC (1 + 2 * 1 + TCL_GROWTH_MIN_ALLOC) := by
  decide

/-- Claim C2 (amended): whenever an append needs more capacity than is
allocated, the grower first attempts 2*(current+extra) and only on failure
of that allocation falls back; on the byte path the fallback is
current + 2*extra + MIN_ALLOC bytes (clamp aside), while on the code-unit
path the fallback is STRING_UALLOC(current + 2*extra) plus MIN_ALLOC bytes
— i.e. MIN_ALLOC is 1024 bytes (512 code units), not 1024 code units,
there. -/
theorem append_growth_policy :
    (∀ (st : StringSt) (app : List Nat) (attemptOk : Bool),
      app.length ≠ 0 →
      app.length ≤ INT_MAX - st.bytes.length →
      st.bytes.length + app.length > st.allocated →
      app.length + TCL_GROWTH_MIN_ALLOC ≤
        INT_MAX - (st.bytes.length + app.length) →
      (appendUtfToUtfRep st app attemptOk).toOption.map StringSt.allocated =
        some (if attemptOk then 2 * (st.bytes.length + app.length)
          else st.bytes.length + 2 * app.length + TCL_GROWTH_MIN_ALLOC)) ∧
    (∀ (st : StringSt) (app : List Nat) (attemptOk : Bool),
      app.length ≠ 0 →
      STRING_UALLOC (st.numChars.toNat + app.length) ≥ st.uallocated →
      (appendUnicodeToUnicodeRep st app attemptOk).uallocated =
        if attemptOk then
          STRING_UALLOC (2 * (st.numChars.toNat + app.length))
        else STRING_UALLOC (st.numChars.toNat + 2 * app.length)
          + TCL_GROWTH_MIN_ALLOC) := by
  constructor
  · intro st app attemptOk hne hmax hgrow hnoclamp
    have h2 : ¬ app.length > INT_MAX - st.bytes.length := by omega
    have h3 : app.length + st.bytes.length > st.allocated := by omega
    have h4 : ¬ app.length + TCL_GROWTH_MIN_ALLOC >
        INT_MAX - (app.length + st.bytes.length) := by omega
    cases attemptOk with
    | true =>
      simp only [appendUtfToUtfRep]
      simp only [TCL_GROWTH_MIN_ALLOC, INT_MAX] at *
      simp [hne, h2, h3]
      all_goals exact ⟨_, rfl, by simp; omega⟩
    | false =>
      simp only [appendUtfToUtfRep]
      simp only [TCL_GROWTH_MIN_ALLOC, INT_MAX] at *
      simp [hne, h2, h3, h4]
      all_goals exact ⟨_, rfl, by simp; omega⟩
  · intro st app attemptOk hne hgrow
    cases attemptOk with
    | true =>
      simp only [appendUnicodeToUnicodeRep, hne, hgrow]
      simp [hgrow, STRING_UALLOC]
    | false =>
      simp only [appendUnicodeToUnicodeRep, hne, hgrow]
      simp [hgrow, STRING_UALLOC]
      omega

/-- Witness for the amended C2 at concrete inputs on both paths, with the
doubling attempt failing. -/
theorem append_growth_policy_witness :
    (appendUtfToUtfRep ⟨[97], true, -1, false, [], 1, 0⟩ [98, 99]
        false).toOption.map StringSt.allocated
      = some (if false then 2 * (1 + 2)
        else 1 + 2 * 2 + TCL_GROWTH_MIN_ALLOC) ∧
    (appendUnicodeToUnicodeRep ⟨[], false, 1, true, [65], 0, 4⟩ [66]
        false).uallocated
      = if false then STRING_UALLOC (2 * (1 + 1))
        else STRING_UALLOC (1 + 2 * 1) + TCL_GROWTH_MIN_ALLOC :=
  ⟨append_growth_policy.1 ⟨[97], true, -1, false, [], 1, 0⟩ [98, 99] false
      (by decide) (by decide) (by decide) (by decide),
    append_growth_policy.2 ⟨[], false, 1, true, [65], 0, 4⟩ [66] false
      (by decide) (by decide)⟩

/-! ## Limited append (Tcl_AppendLimitedToObj) -/

/-- Step sizes of the decode of a byte sequence. -/
def utfSteps (l : List Nat) : List Nat := (utfScan l).map Prod.snd

/-- Partial sums: the byte offsets at which characters start (plus the end
offset). -/
def sumsFrom (acc : Nat) : List Nat → List Nat
  | [] => [acc]
  | s :: rest => acc :: sumsFrom (acc + s) rest

/-- The character-boundary byte offsets of a byte sequence (0, each
character start, and the total length). -/
def utfBoundaries (l : List Nat) : List Nat := sumsFrom 0 (utfSteps l)

/-- Modelled from the spec: Tcl_UtfPrev (tclUtf.c, absent from the
sources) — the cut point steps backward from the given position to the
previous character boundary (the start of the character occurring just
before position p; 0 when there is none). -/
def tclUtfPrev (l : List Nat) (p : Int) : Nat :=
  ((utfBoundaries l).filter (fun b : Nat => decide ((b : Int) < p))).foldl
    max 0

/-- The default ellipsis marker "..." used when none is supplied
(line 1114). -/
def defaultEllipsis : List Nat := [46, 46, 46]

/-- Tcl_AppendLimitedToObj (lines 1080-1142) at the byte level: which
source bytes are copied is decided (lines 1110-1117) before the
representation dispatch, so the destination is modelled as its byte
content and both dispatch targets append the same material. -/
def tclAppendLimitedToObj (shared : Bool) (dest : List Nat)
    (bytes : List Nat) (length limit : Int) (ellipsis : Option (List Nat)) :
    Except TclPanic (List Nat) :=
  if shared then .error .sharedObj
  else
    let len : Int := if length < 0 then (bytes.length : Int) else length
    if len = 0 then .ok dest
    else if len ≤ limit then .ok (dest ++ bytes.take len.toNat)
    else
      let ell := ellipsis.getD defaultEllipsis
      let toCopy := tclUtfPrev bytes (limit + 1 - (ell.length : Int))
      .ok (dest ++ bytes.take toCopy ++ ell)

theorem foldl_max_le (xs : List Nat) (a k : Nat) (ha : a ≤ k)
    (hall : ∀ x ∈ xs, x ≤ k) : xs.foldl max a ≤ k := by
  induction xs generalizing a with
  | nil => simpa using ha
  | cons x xs ih =>
    simp only [List.foldl_cons]
    exact ih (max a x) (by
      have := hall x (by simp)
      omega) (fun y hy => hall y (by simp [hy]))

theorem foldl_max_mem (xs : List Nat) (a : Nat) :
    xs.foldl max a = a ∨ xs.foldl max a ∈ xs := by
  induction xs generalizing a with
  | nil => simp
  | cons x xs ih =>
    simp only [List.foldl_cons]
    rcases ih (max a x) with h | h
    · rcases max_choice a x with hm | hm
      · left; rw [h, hm]
      · right; rw [h, hm]; simp
    · right; simp [h]

theorem zero_mem_utfBoundaries (l : List Nat) : 0 ∈ utfBoundaries l := by
  unfold utfBoundaries
  cases utfSteps l <;> simp [sumsFrom]

/-- Claim C4: when the available length exceeds the limit, at most `limit`
bytes of the source are copied, the copied prefix ends on a character
boundary, and the ellipsis marker is appended immediately after it. -/
theorem appendLimited_truncation (dest bytes : List Nat)
    (length limit : Int) (ellipsis : Option (List Nat))
    (hover : limit < (if length < 0 then (bytes.length : Int) else length))
    (hlim : 0 ≤ limit) :
    tclAppendLimitedToObj false dest bytes length limit ellipsis
        = .ok (dest ++ bytes.take (tclUtfPrev bytes (limit + 1 -
            ((ellipsis.getD defaultEllipsis).length : Int)))
          ++ ellipsis.getD defaultEllipsis) ∧
      ((tclUtfPrev bytes (limit + 1 -
          ((ellipsis.getD defaultEllipsis).length : Int)) : Nat) : Int)
        ≤ limit ∧
      tclUtfPrev bytes (limit + 1 -
          ((ellipsis.getD defaultEllipsis).length : Int))
        ∈ utfBoundaries bytes := by
  set ell := ellipsis.getD defaultEllipsis with hell
  set toCopy := tclUtfPrev bytes (limit + 1 - (ell.length : Int)) with htc
  have hne : ¬ (if length < 0 then (bytes.length : Int) else length) = 0 := by
    omega
  have hgt : ¬ (if length < 0 then (bytes.length : Int) else length)
      ≤ limit := by omega
  refine ⟨?_, ?_, ?_⟩
  · simp only [tclAppendLimitedToObj, if_neg hne, if_neg hgt]
    rfl
  · have hle : toCopy ≤ limit.toNat := by
      apply foldl_max_le
      · omega
      · intro x hx
        have hp := List.of_mem_filter hx
        simp only [decide_eq_true_eq] at hp
        omega
    omega
  · have hdef : toCopy = ((utfBoundaries bytes).filter
        (fun b : Nat =>
          decide ((b : Int) < limit + 1 - (ell.length : Int)))).foldl
        max 0 := htc.trans rfl
    rcases foldl_max_mem
      ((utfBoundaries bytes).filter
        (fun b : Nat =>
          decide ((b : Int) < limit + 1 - (ell.length : Int)))) 0 with h | h
    · rw [hdef, h]
      exact zero_mem_utfBoundaries bytes
    · rw [hdef]
      exact List.mem_of_mem_filter h

/-- Witness for C4: appending six bytes with limit 5 and the default
ellipsis copies two bytes ("ab") and appends "...". -/
theorem appendLimited_truncation_witness :
    tclAppendLimitedToObj false [] [97, 98, 99, 100, 101, 102] (-1) 5 none
        = .ok ([] ++ List.take (tclUtfPrev [97, 98, 99, 100, 101, 102]
            (5 + 1 - (((none : Option (List Nat)).getD
              defaultEllipsis).length : Int))) [97, 98, 99, 100, 101, 102]
          ++ (none : Option (List Nat)).getD defaultEllipsis) ∧
      ((tclUtfPrev [97, 98, 99, 100, 101, 102] (5 + 1 -
          (((none : Option (List Nat)).getD defaultEllipsis).length : Int))
          : Nat) : Int) ≤ 5 ∧
      tclUtfPrev [97, 98, 99, 100, 101, 102] (5 + 1 -
          (((none : Option (List Nat)).getD defaultEllipsis).length : Int))
        ∈ utfBoundaries [97, 98, 99, 100, 101, 102] :=
  appendLimited_truncation [] [97, 98, 99, 100, 101, 102] (-1) 5 none
    (by decide) (by decide)

/-! ## Reverse (TclStringObjReverse) -/

/-- Body of TclStringObjReverse after the character count has been
obtained (lines 2623-2678): a no-op for length ≤ 1; otherwise reverse the
authoritative representation, in place when uniquely owned (invalidating
the stale peer representation), into a freshly built value copied
back-to-front when shared.  Returns (returned value, argument value
afterwards, whether the result is a fresh allocation). -/
def reverseCore (shared : Bool) (n : Int) (st : StringSt) :
    StringSt × StringSt × Bool :=
  if n ≤ 1 then (st, st, false)
  else if st.hasUnicode then
    if shared then
      ({ bytes := [], bytesValid := false, numChars := n, hasUnicode := true,
         unicode := (st.unicode.take n.toNat).reverse,
         allocated := 0, uallocated := STRING_UALLOC n.toNat }, st, true)
    else
      let stNew :=
        { st with
          unicode :=
            (st.unicode.take n.toNat).reverse ++ st.unicode.drop n.toNat
          bytesValid := false
          allocated := 0 }
      (stNew, stNew, false)
  else
    if shared then
      ({ bytes := (st.bytes.take n.toNat).reverse, bytesValid := true,
         numChars := -1, hasUnicode := false, unicode := [],
         allocated := n.toNat, uallocated := 0 }, st, true)
    else
      let stNew :=
        { st with
          bytes := (st.bytes.take n.toNat).reverse ++ st.bytes.drop n.toNat }
      (stNew, stNew, false)

/-- TclStringObjReverse (lines 2614-2679). -/
def tclStringObjReverse (shared : Bool) (st0 : StringSt) :
    StringSt × StringSt × Bool :=
  let r := tclGetCharLength st0
  reverseCore shared r.1 r.2

theorem reverse_of_len_le_one (l : List Nat) (h : l.length ≤ 1) :
    l.reverse = l := by
  match l with
  | [] => rfl
  | [a] => rfl
  | a :: b :: rest => simp at h

/-- Tcl_GetCharLength preserves the visible character sequence, returns its
length, and, when the result state has no wide representation and more than
one character, guarantees the all-single-byte invariant needed by the byte
reversal path. -/
theorem getCharLength_chars (st0 : StringSt)
    (hwf : wellFormedUtf st0.bytes = true)
    (hu : st0.hasUnicode = true → st0.numChars = (st0.unicode.length : Int))
    (hun : st0.numChars = -1 → st0.hasUnicode = false)
    (hnb : st0.hasUnicode = false → st0.numChars = -1 ∨
      (st0.numChars = (st0.bytes.length : Int) ∧
        st0.numChars = ((utfDecode st0.bytes).length : Int))) :
    (tclGetCharLength st0).2.chars = st0.chars ∧
    (tclGetCharLength st0).1 = (st0.chars.length : Int) ∧
    ((tclGetCharLength st0).2.hasUnicode = false →
      1 < (tclGetCharLength st0).1 →
      (tclGetCharLength st0).1
          = ((tclGetCharLength st0).2.bytes.length : Int) ∧
        ∀ x ∈ (tclGetCharLength st0).2.bytes, x < 0x80) := by
  by_cases hnc : st0.numChars = -1
  · have hU : st0.hasUnicode = false := hun hnc
    have hfc := fastCharLength_eq st0.bytes
    by_cases hEq : ((fastCharLength st0.bytes : Nat) : Int)
        = (st0.bytes.length : Int)
    · have hcount : (utfDecode st0.bytes).length = st0.bytes.length := by
        unfold tclNumUtfChars at hfc
        omega
      have hascii : ∀ x ∈ st0.bytes, x < 0x80 :=
        wellFormed_count_ascii st0.bytes hwf hcount
      have hr : tclGetCharLength st0 =
          ((fastCharLength st0.bytes : Int),
            { st0 with numChars := (fastCharLength st0.bytes : Int),
                       hasUnicode := false }) := by
        simp [tclGetCharLength, hnc, hEq]
      rw [hr]
      refine ⟨?_, ?_, ?_⟩
      · simp [StringSt.chars, hU]
      · simp [StringSt.chars, hU]
        unfold tclNumUtfChars at hfc
        omega
      · intro _ _
        exact ⟨hEq, hascii⟩
    · have hr : tclGetCharLength st0 =
          ((fastCharLength st0.bytes : Int),
            fillUnicodeRep
              { st0 with numChars := (fastCharLength st0.bytes : Int) }) := by
        simp [tclGetCharLength, hnc, hEq]
      have hfill : fillUnicodeRep
            { st0 with numChars := (fastCharLength st0.bytes : Int) }
          = { st0 with
              numChars := (fastCharLength st0.bytes : Int)
              hasUnicode := decide ((0 : Int) + (fastCharLength st0.bytes : Int) > 0)
              uallocated :=
                (extendUnicodeRepWithString
                  { st0 with numChars := (fastCharLength st0.bytes : Int) }
                  st0.bytes (fastCharLength st0.bytes : Int)).uallocated
              unicode := utfDecode st0.bytes } := by
        simp [fillUnicodeRep, extendUnicodeRepWithString, hU,
          (by omega : ¬ ((fastCharLength st0.bytes : Nat) : Int) = -1)]
      rw [hr, hfill]
      refine ⟨?_, ?_, ?_⟩
      · simp only [StringSt.chars, hU]
        split <;> rfl
      · simp [StringSt.chars, hU]
        unfold tclNumUtfChars at hfc
        omega
      · intro hwide hgt
        simp only [decide_eq_false_iff_not] at hwide
        omega
  · have hr : tclGetCharLength st0 = (st0.numChars, st0) := by
      simp [tclGetCharLength, hnc]
    rw [hr]
    by_cases hU : st0.hasUnicode = true
    · refine ⟨rfl, ?_, ?_⟩
      · simp only [StringSt.chars, hU, if_pos]
        exact hu hU
      · intro hwide
        rw [hU] at hwide
        simp at hwide
    · rcases hnb (by simpa using hU) with h | ⟨h1, h2⟩
      · exact absurd h hnc
      · have hcount : (utfDecode st0.bytes).length = st0.bytes.length := by
          omega
        refine ⟨rfl, ?_, ?_⟩
        · simp only [StringSt.chars, if_neg hU]
          omega
        · intro _ _
          exact ⟨h1, wellFormed_count_ascii st0.bytes hwf hcount⟩

/-- The reversal body on a shared value: source untouched, result is the
character reverse, fresh allocation whenever more than one character. -/
theorem reverseCore_shared (n : Int) (st : StringSt)
    (hn : n = (st.chars.length : Int))
    (hU0 : st.hasUnicode = false → 1 < n →
      n = (st.bytes.length : Int) ∧ ∀ x ∈ st.bytes, x < 0x80) :
    (reverseCore true n st).2.1 = st ∧
    (reverseCore true n st).1.chars = st.chars.reverse ∧
    (1 < st.chars.length → (reverseCore true n st).2.2 = true) := by
  by_cases hle : n ≤ 1
  · have hr : reverseCore true n st = (st, st, false) := by
      simp [reverseCore, hle]
    rw [hr]
    refine ⟨rfl, ?_, ?_⟩
    · show st.chars = st.chars.reverse
      exact (reverse_of_len_le_one st.chars (by omega)).symm
    · intro hgt
      omega
  · by_cases hU : st.hasUnicode = true
    · have hr : reverseCore true n st =
          ({ bytes := [], bytesValid := false, numChars := n,
             hasUnicode := true,
             unicode := (st.unicode.take n.toNat).reverse,
             allocated := 0, uallocated := STRING_UALLOC n.toNat },
            st, true) := by
        simp [reverseCore, hle, hU]
      rw [hr]
      refine ⟨rfl, ?_, fun _ => rfl⟩
      have hlen : st.unicode.length = n.toNat := by
        simp only [StringSt.chars, hU, if_pos] at hn
        omega
      simp [StringSt.chars, hU, ← hlen, List.take_length]
    · have hU' : st.hasUnicode = false := by simpa using hU
      obtain ⟨hnb, hascii⟩ := hU0 hU' (by omega)
      have hr : reverseCore true n st =
          ({ bytes := (st.bytes.take n.toNat).reverse, bytesValid := true,
             numChars := -1, hasUnicode := false, unicode := [],
             allocated := n.toNat, uallocated := 0 }, st, true) := by
        simp [reverseCore, hle, hU']
      rw [hr]
      refine ⟨rfl, ?_, fun _ => rfl⟩
      have hlen : st.bytes.length = n.toNat := by omega
      have hid : utfDecode st.bytes = st.bytes :=
        utfDecode_all_lt st.bytes
          (fun x hx => by have := hascii x hx; omega)
      have hidr : utfDecode st.bytes.reverse = st.bytes.reverse :=
        utfDecode_all_lt st.bytes.reverse
          (fun x hx => by
            have := hascii x (List.mem_reverse.mp hx); omega)
      simp [StringSt.chars, hU', ← hlen, List.take_length, hidr, hid]

/-- Claim C6: reversing a value observed as shared leaves the source's
visible character sequence untouched and yields the reversed character
sequence, through a freshly allocated value whenever the count exceeds one;
and the other mutating entry points never alter a shared value either
(they panic, or report failure with the value unmodified). -/
theorem reverse_shared_never_mutates (st0 : StringSt)
    (hwf : wellFormedUtf st0.bytes = true)
    (hu : st0.hasUnicode = true → st0.numChars = (st0.unicode.length : Int))
    (hun : st0.numChars = -1 → st0.hasUnicode = false)
    (hnb : st0.hasUnicode = false → st0.numChars = -1 ∨
      (st0.numChars = (st0.bytes.length : Int) ∧
        st0.numChars = ((utfDecode st0.bytes).length : Int))) :
    ((tclStringObjReverse true st0).2.1.chars = st0.chars ∧
     (tclStringObjReverse true st0).1.chars = st0.chars.reverse ∧
     (1 < st0.chars.length → (tclStringObjReverse true st0).2.2 = true)) ∧
    (∀ (dest b : List Nat) (len lim : Int) (e : Option (List Nat)),
      tclAppendLimitedToObj true dest b len lim e = .error .sharedObj) ∧
    (∀ (st : StringSt) (len : Int), ∃ p,
      tclSetObjLength true st len = .error p) ∧
    (∀ (st : StringSt) (len : Int) (aOk : Bool),
      tclAttemptSetObjLength true st len aOk = .error .sharedObj ∨
        tclAttemptSetObjLength true st len aOk = .ok (false, st)) := by
  obtain ⟨hchars, hcnt, hbytes⟩ := getCharLength_chars st0 hwf hu hun hnb
  have hcore := reverseCore_shared (tclGetCharLength st0).1
    (tclGetCharLength st0).2 (by rw [hchars, hcnt])
    (fun h1 h2 => hbytes h1 (by omega))
  refine ⟨?_, ?_, ?_, ?_⟩
  · have hrw : tclStringObjReverse true st0 =
        reverseCore true (tclGetCharLength st0).1 (tclGetCharLength st0).2 :=
      rfl
    rw [hrw]
    refine ⟨?_, ?_, ?_⟩
    · rw [hcore.1, hchars]
    · rw [hcore.2.1, hchars]
    · intro hgt
      exact hcore.2.2 (by rw [hchars]; exact hgt)
  · intro dest b len lim e
    rfl
  · intro st len
    by_cases hneg : len < 0
    · exact ⟨.negLength, by simp [tclSetObjLength, hneg]⟩
    · exact ⟨.sharedObj, by simp [tclSetObjLength, hneg]⟩
  · intro st len aOk
    by_cases hneg : len < 0
    · right; simp [tclAttemptSetObjLength, hneg]
    · left; simp [tclAttemptSetObjLength, hneg]

/-- Witness for C6 at a concrete shared two-byte value. -/
theorem reverse_shared_never_mutates_witness :
    (tclStringObjReverse true ⟨[98, 97], true, -1, false, [], 2, 0⟩).2.1.chars
        = StringSt.chars ⟨[98, 97], true, -1, false, [], 2, 0⟩ ∧
      (tclStringObjReverse true ⟨[98, 97], true, -1, false, [], 2, 0⟩).1.chars
        = (StringSt.chars ⟨[98, 97], true, -1, false, [], 2, 0⟩).reverse ∧
      (1 < (StringSt.chars ⟨[98, 97], true, -1, false, [], 2, 0⟩).length →
        (tclStringObjReverse true
          ⟨[98, 97], true, -1, false, [], 2, 0⟩).2.2 = true) :=
  (reverse_shared_never_mutates ⟨[98, 97], true, -1, false, [], 2, 0⟩
    (by decide) (by decide) (by decide) (by decide)).1

/-! ## Format Engine (Tcl_AppendFormatToObj, lines 1761-2364)

The engine is modelled at the decoded-character level: the format template
and every string are lists of Tcl_UniChars (the C iterates the template
with Tcl_UtfToUniChar); byte offsets are recovered through the per-character
encoded length where the code uses byte counts.  Arguments are objects
carrying their string rep and the outcome of the runtime's typed coercions
(Tcl_GetBignumFromObj succeeds exactly when `intVal` is present; narrower
coercions reduce the value modulo the type width as the
mp_mod_2d-and-reextract chain of lines 2025-2070 does).  Platform
assumptions: long is 32 bits, Tcl_WideInt 64 bits, short 16 bits, int 32
bits (TCL_WIDE_INT_IS_LONG undefined).  The native float formatter (an
external consumed capability per the spec) is a parameter `ffmt`. -/

/-- A format argument: string rep plus coercion outcomes. -/
structure TObj where
  chars : List Nat
  intVal : Option Int
  dblOk : Bool
deriving DecidableEq, Repr

/-- The destination object: visible character sequence, whether the
fixed-width rep is the live one, and whether the byte rep is present. -/
structure Dest where
  chars : List Nat
  hasUnicode : Bool
  bytesValid : Bool
deriving DecidableEq, Repr

/-- Recoverable format-engine failures (the messages of lines 1772-1777,
1983, 2010 and 2318, plus coercion failures signalled by the runtime). -/
inductive FmtError
  | mixedXpg
  | badIndex
  | truncated
  | badSpecifier
  | coerce
  | unsignedBig
deriving DecidableEq, Repr

/-- The flags/width/precision/conversion quadruple handed to the native
float formatter (lines 2266-2305). -/
structure FloatSpec where
  gotMinus : Bool
  gotHash : Bool
  gotZero : Bool
  gotSpace : Bool
  gotPlus : Bool
  width : Int
  gotPrecision : Bool
  precision : Int
  conv : Nat
deriving DecidableEq, Repr

/-- Per-template parsing state threaded across conversion specifiers. -/
structure SpecSt where
  objIndex : Int
  gotXpg : Bool
  gotSequential : Bool
deriving DecidableEq, Repr

/-- Next template character; 0 plays the NUL terminator. -/
def peek : List Nat → Nat
  | [] => 0
  | c :: _ => c

def isDigitU (c : Nat) : Bool := decide (48 ≤ c ∧ c ≤ 57)

/-- strtoul on a digit run. -/
def digitsToNat (ds : List Nat) : Nat :=
  ds.foldl (fun a d => 10 * a + (d - 48)) 0

/-- Step 2 flag loop (lines 1857-1883): minus, hash, zero, space, plus in
any order. -/
def pFlags : List Nat → Bool → Bool → Bool → Bool → Bool →
    (Bool × Bool × Bool × Bool × Bool) × List Nat
  | [], m, h, z, sp, pl => ((m, h, z, sp, pl), [])
  | c :: rest, m, h, z, sp, pl =>
    if c = 45 then pFlags rest true h z sp pl
    else if c = 35 then pFlags rest m true z sp pl
    else if c = 48 then pFlags rest m h true sp pl
    else if c = 32 then pFlags rest m h z true pl
    else if c = 43 then pFlags rest m h z sp true
    else ((m, h, z, sp, pl), c :: rest)

/-- Two's-complement truncation to the given bit width, signed result. -/
def toSigned (bits : Nat) (v : Int) : Int :=
  let m := v % ((2 : Int) ^ bits)
  if m < (2 : Int) ^ (bits - 1) then m else m - (2 : Int) ^ bits

/-- Reduction to the given bit width, unsigned result. -/
def toUnsigned (bits : Nat) (v : Int) : Int := v % ((2 : Int) ^ bits)

/-- TclGetIntFromObj: succeeds only for values representable in a 32-bit
int. -/
def tclGetIntFromObj (o : TObj) : Option Int :=
  match o.intVal with
  | some v =>
    if -((2 : Int) ^ 31) ≤ v ∧ v < (2 : Int) ^ 31 then some v else none
  | none => none

/-- The value extraction chain of lines 2025-2070: bignum keeps the exact
value; wide/long/short coercions reduce modulo the respective width (via
the mp_mod_2d fallback) and reinterpret as signed. -/
def extractIntValue (useShort useWide useBig : Bool) (o : TObj) :
    Option Int :=
  match o.intVal with
  | none => none
  | some v =>
    if useBig then some v
    else if useWide then some (toSigned 64 v)
    else if useShort then some (toSigned 16 (toSigned 32 v))
    else some (toSigned 32 v)

def countDigitsAux (base : Nat) : Nat → Nat → Nat
  | _, 0 => 0
  | 0, _ + 1 => 0
  | fuel + 1, n + 1 => countDigitsAux base fuel ((n + 1) / base) + 1

/-- Number of digits of a value in the given base (0 for the value 0), as
the division loops of lines 2169-2202 count them. -/
def countDigits (base n : Nat) : Nat := countDigitsAux base n n

def digitChar (d : Nat) : Nat := if d > 9 then 97 + d - 10 else 48 + d

/-- The digit cells written by the emission loop (lines 2211-2233): cell i
holds digit number numDigits-1-i of the value. -/
def natToDigits (base mag numDigits : Nat) : List Nat :=
  (List.range numDigits).map
    (fun i => digitChar ((mag / base ^ (numDigits - 1 - i)) % base))

/-- Decimal digit string of a magnitude ("0" for 0), as produced by the
canonical string rep of the pure integer object (lines 2098-2128). -/
def decChars (mag : Nat) : List Nat :=
  natToDigits 10 mag (max 1 (countDigits 10 mag))

/-- Tcl_UniCharToUtf on the %c code point: BMP values kept, anything else
encoded as the replacement character. -/
def uniCharOfCode (code : Int) : Nat :=
  if 0 ≤ code ∧ code ≤ 0xFFFF then code.toNat else 0xFFFD

/-- Modelled from the spec: Tcl_UtfToUpper (tclUtf.c, absent from the
sources), restricted to the ASCII range the numeric segments use. -/
def asciiUpper (c : Nat) : Nat :=
  if 97 ≤ c ∧ c ≤ 122 then c - 32 else c

/-- The integer-family segment builder (lines 2017-2258): optional sign
glyph — from (negative || forceSign || spaceSign), emitted when the
conversion is signed decimal OR uses the arbitrary-precision modifier —
then the alternate-form prefix (for octal it doubles as a digit:
precision is decremented), then precision zero-padding (which disables the
zero flag), then zero-flag width padding, then the digit cells. -/
def buildIntSegment (gotPlus gotSpace gotHash gotZero gotPrecision : Bool)
    (precision width : Int) (useShort useWide useBig : Bool) (ch : Nat)
    (val : Int) : List Nat :=
  let isNegative := val < 0
  let signPart : List Nat :=
    if (isNegative ∨ gotPlus ∨ gotSpace) ∧ (useBig ∨ ch = 100) then
      [if isNegative then 45 else if gotPlus then 43 else 32]
    else []
  let hashPart : List Nat :=
    if gotHash then
      if ch = 111 then [48]
      else if ch = 120 ∨ ch = 88 then [48, 120]
      else if ch = 98 then [48, 98]
      else []
    else []
  let precision1 := if gotHash ∧ ch = 111 then precision - 1 else precision
  let digits : List Nat :=
    if ch = 100 then decChars val.natAbs
    else
      let base : Nat :=
        if ch = 117 then 10 else if ch = 111 then 8
        else if ch = 98 then 2 else 16
      let mag : Nat :=
        if useShort then (toUnsigned 16 val).toNat
        else if useWide then (toUnsigned 64 val).toNat
        else if useBig then val.natAbs
        else (toUnsigned 32 val).toNat
      let numDigits := countDigits base mag
      let numDigits :=
        if numDigits = 0 ∧ ¬(ch = 111 ∧ gotHash) then 1 else numDigits
      natToDigits base mag numDigits
  let len : Int := (digits.length : Int)
  let precPad : Nat := if gotPrecision then (precision1 - len).toNat else 0
  let zeroPad : Nat :=
    if gotZero ∧ ¬gotPrecision then
      (width - (len + precPad + signPart.length + hashPart.length)).toNat
    else 0
  signPart ++ hashPart ++ List.replicate precPad 48 ++
    List.replicate zeroPad 48 ++ digits

/-- The gotZero = 0 assignments of lines 2135 and 2242: inside both
integer conversion branches an explicit precision disables zero-flag
width padding, so the emission padding then uses spaces. -/
def clearZeroOnPrecision (gotZero gotPrecision : Bool) : Bool :=
  if gotPrecision then false else gotZero

/-- The emission padding step (lines 2332-2346): character-count the built
segment; when not left-justified pad on the left to the width, then after
the segment pad on the right to the width; both loops use the zero flag's
character ('0' when set, space otherwise). -/
def emitPadded (segment : List Nat) (width : Int) (gotMinus gotZero : Bool) :
    List Nat :=
  let numChars : Int := (segment.length : Int)
  let padChar : Nat := if gotZero then 48 else 32
  let leftPad : Nat := if gotMinus then 0 else (width - numChars).toNat
  let rightPad : Nat := (width - (numChars + (leftPad : Int))).toNat
  List.replicate leftPad padChar ++ segment ++ List.replicate rightPad padChar

/-- The object read when an argument index is (unreachably) out of the
checked range. -/
def dfltObj : TObj := ⟨[], none, false⟩

/-- One conversion specifier, from just after its '%' (steps 0-6 of lines
1807-2348): parses the specifier, converts, pads, and returns the emitted
characters, the updated per-template state and the remaining template. -/
def processSpec (objv : List TObj) (ffmt : FloatSpec → List Nat)
    (sst0 : SpecSt) (f0 : List Nat) :
    Except FmtError (List Nat × SpecSt × List Nat) := do
  match f0 with
  | 37 :: rest =>
    -- Step 0: escaped marker, rejoins the literal run.
    return ([37], sst0, rest)
  | _ =>
    let mut sst := sst0
    let mut f := f0
    -- Step 1: XPG3 position specifier.
    let mut newXpg := false
    if isDigitU (peek f) then
      match f.dropWhile isDigitU with
      | 36 :: r1 =>
        newXpg := true
        sst := { sst with
          objIndex := (digitsToNat (f.takeWhile isDigitU) : Int) - 1 }
        f := r1
      | _ => pure ()
    if newXpg then
      if sst.gotSequential then throw .mixedXpg
      sst := { sst with gotXpg := true }
    else
      if sst.gotXpg then throw .mixedXpg
      sst := { sst with gotSequential := true }
    if sst.objIndex < 0 ∨ sst.objIndex ≥ (objv.length : Int) then
      throw .badIndex
    -- Step 2: flags.
    let fl := pFlags f false false false false false
    let mut gotMinus := fl.1.1
    let gotHash := fl.1.2.1
    let mut gotZero := fl.1.2.2.1
    let gotSpace := fl.1.2.2.2.1
    let gotPlus := fl.1.2.2.2.2
    f := fl.2
    -- Step 3: minimum field width.
    let mut width : Int := 0
    if isDigitU (peek f) then
      width := (digitsToNat (f.takeWhile isDigitU) : Int)
      f := f.dropWhile isDigitU
    else if peek f = 42 then
      if sst.objIndex ≥ (objv.length : Int) - 1 then throw .badIndex
      match tclGetIntFromObj (objv.getD sst.objIndex.toNat dfltObj) with
      | none => throw .coerce
      | some w =>
        width := w
        if width < 0 then
          width := -width
          gotMinus := true
        sst := { sst with objIndex := sst.objIndex + 1 }
        f := f.tail
    -- Step 4: precision.
    let mut gotPrecision := false
    let mut precision : Int := 0
    if peek f = 46 then
      gotPrecision := true
      f := f.tail
    if isDigitU (peek f) then
      precision := (digitsToNat (f.takeWhile isDigitU) : Int)
      f := f.dropWhile isDigitU
    else if peek f = 42 then
      if sst.objIndex ≥ (objv.length : Int) - 1 then throw .badIndex
      match tclGetIntFromObj (objv.getD sst.objIndex.toNat dfltObj) with
      | none => throw .coerce
      | some pv =>
        precision := pv
        if precision < 0 then
          precision := 0
        sst := { sst with objIndex := sst.objIndex + 1 }
        f := f.tail
    -- Step 5: length modifier.
    let mut useShort := false
    let mut useWide := false
    let mut useBig := false
    if peek f = 104 then
      useShort := true
      f := f.tail
    else if peek f = 108 then
      f := f.tail
      if peek f = 108 then
        useBig := true
        f := f.tail
      else
        useWide := true
    -- Step 6: the conversion character ('i' folded into 'd').
    let ch0 := peek f
    let ch := if ch0 = 105 then 100 else ch0
    f := f.tail
    let segObj := objv.getD sst.objIndex.toNat dfltObj
    let mut segment : List Nat := []
    if ch = 0 then
      throw .truncated
    else if ch = 115 then
      segment := segObj.chars
      if gotPrecision ∧ precision < (segObj.chars.length : Int) then
        segment := segObj.chars.take precision.toNat
    else if ch = 99 then
      match tclGetIntFromObj segObj with
      | none => throw .coerce
      | some code => segment := [uniCharOfCode code]
    else if ch = 117 ∨ ch = 100 ∨ ch = 111 ∨ ch = 120 ∨ ch = 88 ∨ ch = 98
        then
      if ch = 117 ∧ useBig then throw .unsignedBig
      match extractIntValue useShort useWide useBig segObj with
      | none => throw .coerce
      | some val =>
        segment := buildIntSegment gotPlus gotSpace gotHash gotZero
          gotPrecision precision width useShort useWide useBig ch val
        gotZero := clearZeroOnPrecision gotZero gotPrecision
    else if ch = 101 ∨ ch = 69 ∨ ch = 102 ∨ ch = 103 ∨ ch = 71 then
      if segObj.dblOk then
        segment := ffmt
          ⟨gotMinus, gotHash, gotZero, gotSpace, gotPlus, width,
            gotPrecision, precision, ch⟩
      else throw .coerce
    else throw .badSpecifier
    if ch = 69 ∨ ch = 71 ∨ ch = 88 then
      segment := segment.map asciiUpper
    let out := emitPadded segment width gotMinus gotZero
    sst := { sst with
      objIndex := sst.objIndex + (if sst.gotSequential then 1 else 0) }
    return (out, sst, f)

/-- Appending characters to the destination: the live representation is
extended and the peer one invalidated (byte-path appends reset the unicode
data, unicode-path appends invalidate the string rep); appending nothing is
a no-op (Tcl_AppendToObj / Tcl_AppendObjToObj early returns). -/
def Dest.append (d : Dest) (cs : List Nat) : Dest :=
  if cs = [] then d
  else if d.hasUnicode then
    { d with chars := d.chars ++ cs, bytesValid := false }
  else { d with chars := d.chars ++ cs, bytesValid := true }

/-- Encoded byte length of one character (Tcl_UniCharToUtf with
TCL_UTF_MAX = 3; NUL encodes in two bytes). -/
def uniCharUtfLen (c : Nat) : Nat :=
  if 1 ≤ c ∧ c < 0x80 then 1 else if c < 0x800 then 2 else 3

/-- Encoded byte length of a character sequence. -/
def utfLenOf (l : List Nat) : Nat := (l.map uniCharUtfLen).sum

/-- The characters whose encodings fit in the first `k` bytes. -/
def takeBytes : Nat → List Nat → List Nat
  | _, [] => []
  | k, c :: cs =>
    if uniCharUtfLen c ≤ k then c :: takeBytes (k - uniCharUtfLen c) cs
    else []

/-- Tcl_SetObjLength applied to the format destination with a byte count
(the rollback of line 2362): with a live byte rep the byte content is
truncated at that byte offset; with only the unicode rep live, the
pure-unicode branch (lines 844-866) sets numChars to the BYTE count,
truncating or extending the code-unit array at that many units
(buffer units beyond the old content are undefined, modelled as 0). -/
def Dest.setLength (d : Dest) (len : Nat) : Dest :=
  if d.bytesValid then
    { chars := takeBytes len d.chars, hasUnicode := false, bytesValid := true }
  else
    { chars := d.chars.take len ++ List.replicate (len - d.chars.length) 0
      hasUnicode := decide (len > 0)
      bytesValid := false }

/-- TCL_OK with the destination, or TCL_ERROR with the rolled-back
destination. -/
inductive FmtResult
  | ok (d : Dest)
  | err (e : FmtError) (d : Dest)
deriving DecidableEq, Repr

/-- The template scan loop (lines 1788-2353): literal runs accumulate and
flush before each specifier and at the end; each specifier is processed by
processSpec and its output appended.  The fuel argument (one more than the
template length suffices, since every iteration consumes a character) keeps
the recursion structural. -/
def fmtLoopF (objv : List TObj) (ffmt : FloatSpec → List Nat) :
    Nat → List Nat → List Nat → SpecSt → Dest → FmtResult
  | 0, _, lit, _, dest => .ok (dest.append lit)
  | _ + 1, [], lit, _, dest => .ok (dest.append lit)
  | fuel + 1, c :: rest, lit, sst, dest =>
    if c = 37 then
      let dest1 := dest.append lit
      match processSpec objv ffmt sst rest with
      | .error e => .err e dest1
      | .ok (out, sst1, rem) =>
        fmtLoopF objv ffmt fuel rem [] sst1 (dest1.append out)
    else fmtLoopF objv ffmt fuel rest (lit ++ [c]) sst dest

/-- Tcl_AppendFormatToObj (lines 1761-2364): panics on a shared
destination; forces the destination's byte rep and notes its byte length;
on any failure rolls the destination back to that byte length and reports
the error. -/
def tclAppendFormatToObj (shared : Bool) (dest0 : Dest) (format : List Nat)
    (objv : List TObj) (ffmt : FloatSpec → List Nat) :
    Except TclPanic FmtResult :=
  if shared then .error .sharedObj
  else
    let dest := { dest0 with bytesValid := true }
    let originalLength := utfLenOf dest0.chars
    match fmtLoopF objv ffmt (format.length + 1) format [] ⟨0, false, false⟩
        dest with
    | .ok d => .ok (.ok d)
    | .err e d => .ok (.err e (d.setLength originalLength))

/-! ## Format-engine theorems -/

/-- Claim C10: formatting the integer 0 with the alternate-form octal
conversion emits exactly "0" (the prefix itself is the single digit, no
extra zero), while every integer conversion of 0 without the alternate form
still emits one '0' digit. -/
theorem format_zero_digits :
    tclAppendFormatToObj false ⟨[], false, true⟩ [37, 35, 111]
        [⟨[48], some 0, false⟩] (fun _ => [])
      = .ok (.ok ⟨[48], false, true⟩) ∧
    tclAppendFormatToObj false ⟨[], false, true⟩ [37, 111]
        [⟨[48], some 0, false⟩] (fun _ => [])
      = .ok (.ok ⟨[48], false, true⟩) ∧
    tclAppendFormatToObj false ⟨[], false, true⟩ [37, 100]
        [⟨[48], some 0, false⟩] (fun _ => [])
      = .ok (.ok ⟨[48], false, true⟩) ∧
    tclAppendFormatToObj false ⟨[], false, true⟩ [37, 117]
        [⟨[48], some 0, false⟩] (fun _ => [])
      = .ok (.ok ⟨[48], false, true⟩) ∧
    tclAppendFormatToObj false ⟨[], false, true⟩ [37, 120]
        [⟨[48], some 0, false⟩] (fun _ => [])
      = .ok (.ok ⟨[48], false, true⟩) ∧
    tclAppendFormatToObj false ⟨[], false, true⟩ [37, 88]
        [⟨[48], some 0, false⟩] (fun _ => [])
      = .ok (.ok ⟨[48], false, true⟩) ∧
    tclAppendFormatToObj false ⟨[], false, true⟩ [37, 98]
        [⟨[48], some 0, false⟩] (fun _ => [])
      = .ok (.ok ⟨[48], false, true⟩) :=
  ⟨rfl, rfl, rfl, rfl, rfl, rfl, rfl⟩

/-- Counterexample for claim C7: formatting 1 with "%+llo" — an octal
conversion under the arbitrary-precision length modifier — emits the sign
glyph '+' before the digit, so a sign glyph IS emitted for an octal
conversion. -/
theorem bignum_octal_sign_glyph :
    tclAppendFormatToObj false ⟨[], false, true⟩ [37, 43, 108, 108, 111]
        [⟨[49], some 1, false⟩] (fun _ => [])
      = .ok (.ok ⟨[43, 49], false, true⟩) ∧
    ([43, 49] : List Nat) ≠ [49] :=
  ⟨rfl, by decide⟩

theorem digitChar_ge (d : Nat) : 48 ≤ digitChar d := by
  unfold digitChar
  split <;> omega

theorem natToDigits_ge (base mag nd : Nat) :
    ∀ c ∈ natToDigits base mag nd, 48 ≤ c := by
  intro c hc
  simp only [natToDigits, List.mem_map] at hc
  obtain ⟨i, _, rfl⟩ := hc
  exact digitChar_ge _

/-- When the sign condition of line 2076 is false, every character of the
integer segment is at or above '0' — no sign glyph (codes 45, 43, 32)
anywhere. -/
theorem buildIntSegment_no_sign
    (gotPlus gotSpace gotHash gotZero gotPrecision : Bool)
    (precision width : Int) (useShort useWide useBig : Bool) (ch : Nat)
    (val : Int)
    (hns : ¬((val < 0 ∨ gotPlus = true ∨ gotSpace = true) ∧
      (useBig = true ∨ ch = 100))) :
    ∀ c ∈ buildIntSegment gotPlus gotSpace gotHash gotZero gotPrecision
      precision width useShort useWide useBig ch val, 48 ≤ c := by
  intro c hc
  simp only [buildIntSegment] at hc
  rw [if_neg hns] at hc
  simp only [List.nil_append, List.append_assoc, List.mem_append] at hc
  rcases hc with h | h | h | h
  · split at h
    · split at h
      · simp at h; omega
      · split at h
        · simp at h; rcases h with h | h <;> omega
        · split at h
          · simp at h; rcases h with h | h <;> omega
          · simp at h
    · simp at h
  · have := List.eq_of_mem_replicate h
    omega
  · have := List.eq_of_mem_replicate h
    omega
  · split at h
    · exact natToDigits_ge _ _ _ c h
    · exact natToDigits_ge _ _ _ c h

/-- Claim C7 (amended): in the integer conversion family a sign glyph
('-', '+' or space), computed from (negative || forceSign || spaceSign), is
emitted exactly when the conversion is the signed decimal one OR carries
the arbitrary-precision length modifier; for unsigned, octal, hexadecimal
and binary conversions WITHOUT that modifier every emitted character is at
or above '0' (no sign glyph: those have codes 45, 43, 32, all below 48). -/
theorem intSegment_sign_glyph
    (gotPlus gotSpace gotHash gotZero gotPrecision : Bool)
    (precision width : Int) (useShort useWide useBig : Bool) (ch : Nat)
    (val : Int) :
    (useBig = false → ch ≠ 100 →
      ∀ c ∈ buildIntSegment gotPlus gotSpace gotHash gotZero gotPrecision
        precision width useShort useWide useBig ch val, 48 ≤ c) ∧
    ((useBig = true ∨ ch = 100) →
      (val < 0 ∨ gotPlus = true ∨ gotSpace = true) →
      (buildIntSegment gotPlus gotSpace gotHash gotZero gotPrecision
          precision width useShort useWide useBig ch val).head?
        = some (if val < 0 then 45 else if gotPlus = true then 43 else 32)) ∧
    ((useBig = true ∨ ch = 100) →
      ¬(val < 0 ∨ gotPlus = true ∨ gotSpace = true) →
      ∀ c ∈ buildIntSegment gotPlus gotSpace gotHash gotZero gotPrecision
        precision width useShort useWide useBig ch val, 48 ≤ c) := by
  refine ⟨?_, ?_, ?_⟩
  · intro hbig hch
    apply buildIntSegment_no_sign
    rintro ⟨-, h | h⟩
    · rw [hbig] at h; simp at h
    · exact hch h
  · intro hd hsign
    simp only [buildIntSegment]
    rw [if_pos ⟨hsign, hd⟩]
    simp
  · intro _ hns
    apply buildIntSegment_no_sign
    rintro ⟨h, -⟩
    exact hns h

/-- Witness for the amended C7: "%o" of -1 without the bignum modifier
(the 32-bit unsigned reduction) emits only characters at or above '0',
while "%d" of -1 leads with the '-' glyph. -/
theorem intSegment_sign_glyph_witness :
    (∀ c ∈ buildIntSegment false false false false false 0 0 false false
      false 111 (-1), 48 ≤ c) ∧
    (buildIntSegment false false false false false 0 0 false false
        false 100 (-1)).head?
      = some (if (-1 : Int) < 0 then 45
        else if false = true then 43 else 32) :=
  ⟨(intSegment_sign_glyph false false false false false 0 0 false false
      false 111 (-1)).1 rfl (by decide),
    (intSegment_sign_glyph false false false false false 0 0 false false
      false 100 (-1)).2.1 (Or.inr rfl) (Or.inl (by decide))⟩

/-- Counterexample for claim C8: "%-02s" applied to "a" pads on the RIGHT
with '0', not with a space — left-justified padding uses the zero flag's
character too. -/
theorem leftJustified_zero_pad :
    tclAppendFormatToObj false ⟨[], false, true⟩ [37, 45, 48, 50, 115]
        [⟨[97], some 97, false⟩] (fun _ => [])
      = .ok (.ok ⟨[97, 48], false, true⟩) ∧
    ([97, 48] : List Nat) ≠ [97, 32] :=
  ⟨rfl, by decide⟩

/-- Claim C8 (amended): the padding step pads a segment shorter than the
width on the left when not left-justified and on the right when
left-justified, using '0' whenever the zero flag is still set after
conversion and a space otherwise — the same character on both sides; the
integer conversions clear the flag whenever an explicit precision is given
(so "%08.3d" of 5 pads the field with spaces, giving "     005"), while
the other conversions keep it. -/
theorem emitPadded_spec (segment : List Nat) (width : Int)
    (gotMinus gotZero : Bool) :
    (gotMinus = false →
      emitPadded segment width gotMinus gotZero
        = List.replicate ((width - (segment.length : Int)).toNat)
            (if gotZero then 48 else 32) ++ segment) ∧
    (gotMinus = true →
      emitPadded segment width gotMinus gotZero
        = segment ++ List.replicate ((width - (segment.length : Int)).toNat)
            (if gotZero then 48 else 32)) ∧
    (∀ z : Bool, clearZeroOnPrecision z true = false ∧
      clearZeroOnPrecision z false = z) ∧
    tclAppendFormatToObj false ⟨[], false, true⟩
        [37, 48, 56, 46, 51, 100] [⟨[53], some 5, false⟩] (fun _ => [])
      = .ok (.ok ⟨[32, 32, 32, 32, 32, 48, 48, 53], false, true⟩) := by
  refine ⟨?_, ?_, ?_, ?_⟩
  · intro hm
    subst hm
    simp [emitPadded]
    omega
  · intro hm
    subst hm
    simp [emitPadded]
  · intro z
    exact ⟨rfl, rfl⟩
  · rfl

/-- Witness for the amended C8 at a one-character segment and width 3,
both justifications, zero flag set. -/
theorem emitPadded_spec_witness :
    emitPadded [97] 3 false true
        = List.replicate (((3 : Int) - ((1 : Nat) : Int)).toNat)
            (if true then 48 else 32) ++ [97] ∧
      emitPadded [97] 3 true true
        = [97] ++ List.replicate (((3 : Int) - ((1 : Nat) : Int)).toNat)
            (if true then 48 else 32) :=
  ⟨(emitPadded_spec [97] 3 false true).1 rfl,
    (emitPadded_spec [97] 3 true true).2.1 rfl⟩

/-! ## Error rollback (claim C1) -/

/-- Counterexample for claim C1: a destination holding the single
two-byte character é with its code-unit representation live.  "%d %d"
against the single argument 1 fails, but the rollback truncates the
code-unit array at the destination's pre-call BYTE length (2), so the
destination ends up as "é1" — partial output is retained and the character
sequence changes. -/
theorem format_rollback_partial_output :
    tclAppendFormatToObj false ⟨[233], true, true⟩ [37, 100, 32, 37, 100]
        [⟨[49], some 1, false⟩] (fun _ => [])
      = .ok (.err .badIndex ⟨[233, 49], true, false⟩) ∧
    ([233, 49] : List Nat) ≠ [233] :=
  ⟨rfl, by decide⟩

/-- The destination only ever grows during the scan loop, and a live byte
rep with no unicode rep stays that way. -/
def DExt (a b : Dest) : Prop :=
  (a.hasUnicode = false → b.hasUnicode = false) ∧
  (a.hasUnicode = false → a.bytesValid = true → b.bytesValid = true) ∧
  ∃ t, b.chars = a.chars ++ t

theorem DExt_append (a : Dest) (cs : List Nat) : DExt a (a.append cs) := by
  unfold Dest.append
  by_cases h0 : cs = []
  · rw [if_pos h0]
    exact ⟨fun h => h, fun _ h => h, [], by simp⟩
  · rw [if_neg h0]
    by_cases h1 : a.hasUnicode = true
    · rw [if_pos h1]
      refine ⟨fun h => h, fun h2 _ => ?_, cs, rfl⟩
      rw [h1] at h2
      cases h2
    · rw [if_neg h1]
      exact ⟨fun h => h, fun _ _ => rfl, cs, rfl⟩

theorem DExt_trans {a b c : Dest} (h1 : DExt a b) (h2 : DExt b c) :
    DExt a c := by
  obtain ⟨u1, v1, t1, w1⟩ := h1
  obtain ⟨u2, v2, t2, w2⟩ := h2
  exact ⟨fun h => u2 (u1 h), fun h hb => v2 (u1 h) (v1 h hb),
    t1 ++ t2, by rw [w2, w1, List.append_assoc]⟩

/-- Through the whole scan loop the destination is only appended to. -/
theorem fmtLoop_extends (objv : List TObj) (ffmt : FloatSpec → List Nat) :
    ∀ (fuel : Nat) (f lit : List Nat) (sst : SpecSt) (dest : Dest),
      (∀ d, fmtLoopF objv ffmt fuel f lit sst dest = .ok d → DExt dest d) ∧
      (∀ e d, fmtLoopF objv ffmt fuel f lit sst dest = .err e d →
        DExt dest d) := by
  intro fuel
  induction fuel with
  | zero =>
    intro f lit sst dest
    constructor
    · intro d hd
      simp only [fmtLoopF] at hd
      cases hd
      exact DExt_append dest lit
    · intro e d hd
      simp only [fmtLoopF] at hd
      cases hd
  | succ fuel ih =>
    intro f lit sst dest
    cases f with
    | nil =>
      constructor
      · intro d hd
        simp only [fmtLoopF] at hd
        cases hd
        exact DExt_append dest lit
      · intro e d hd
        simp only [fmtLoopF] at hd
        cases hd
    | cons c rest =>
      by_cases hc : c = 37
      · cases hps : processSpec objv ffmt sst rest with
        | error e0 =>
          constructor
          · intro d hd
            simp only [fmtLoopF, if_pos hc, hps] at hd
            cases hd
          · intro e d hd
            simp only [fmtLoopF, if_pos hc, hps] at hd
            cases hd
            exact DExt_append dest lit
        | ok val =>
          obtain ⟨out, sst1, rem⟩ := val
          have hext : DExt dest ((dest.append lit).append out) :=
            DExt_trans (DExt_append dest lit)
              (DExt_append (dest.append lit) out)
          constructor
          · intro d hd
            simp only [fmtLoopF, if_pos hc, hps] at hd
            exact DExt_trans hext
              ((ih rem [] sst1 ((dest.append lit).append out)).1 d hd)
          · intro e d hd
            simp only [fmtLoopF, if_pos hc, hps] at hd
            exact DExt_trans hext
              ((ih rem [] sst1 ((dest.append lit).append out)).2 e d hd)
      · constructor
        · intro d hd
          simp only [fmtLoopF, if_neg hc] at hd
          exact (ih rest (lit ++ [c]) sst dest).1 d hd
        · intro e d hd
          simp only [fmtLoopF, if_neg hc] at hd
          exact (ih rest (lit ++ [c]) sst dest).2 e d hd

theorem uniCharUtfLen_pos (c : Nat) : 1 ≤ uniCharUtfLen c := by
  unfold uniCharUtfLen
  split
  · omega
  · split <;> omega

/-- Truncating at the byte length of a known prefix recovers exactly that
prefix. -/
theorem takeBytes_append (a b : List Nat) :
    takeBytes (utfLenOf a) (a ++ b) = a := by
  induction a with
  | nil =>
    cases b with
    | nil => rfl
    | cons c cs =>
      simp only [utfLenOf, List.map_nil, List.sum_nil, List.nil_append,
        takeBytes]
      rw [if_neg (by have := uniCharUtfLen_pos c; omega)]
  | cons c cs ih =>
    simp only [utfLenOf, List.map_cons, List.sum_cons, List.cons_append,
      takeBytes]
    rw [if_pos (by omega)]
    rw [show uniCharUtfLen c + (cs.map uniCharUtfLen).sum - uniCharUtfLen c
      = (cs.map uniCharUtfLen).sum by omega]
    simp only [utfLenOf] at ih
    have ih2 : takeBytes (List.map uniCharUtfLen cs).sum (cs.append b)
        = cs := ih
    rw [ih2]

/-- Claim C1 (amended): every format-engine failure returns the error
status with the destination truncated to its pre-call byte length; when
the destination enters with no live code-unit representation (so the byte
rep is the live one throughout), this truncation restores the original
character sequence exactly — in particular "%d %d" against the single
argument 1 fails and leaves such a destination unchanged.  (With a live
code-unit rep and a multi-byte character, partial output can be retained,
as the counterexample shows.) -/
theorem appendFormat_error_rollback (dest : Dest) (format : List Nat)
    (objv : List TObj) (ffmt : FloatSpec → List Nat)
    (hU : dest.hasUnicode = false) :
    ∀ e d1, tclAppendFormatToObj false dest format objv ffmt
        = .ok (.err e d1) → d1.chars = dest.chars := by
  intro e d1 h
  simp only [tclAppendFormatToObj, if_neg (by simp : ¬ false = true)] at h
  cases hres : fmtLoopF objv ffmt (format.length + 1) format []
      ⟨0, false, false⟩ { dest with bytesValid := true } with
  | ok d => rw [hres] at h; cases h
  | err e0 d0 =>
    rw [hres] at h
    cases h
    have hext := (fmtLoop_extends objv ffmt (format.length + 1) format []
      ⟨0, false, false⟩ { dest with bytesValid := true }).2 _ _ hres
    obtain ⟨hu, hb, t, ht⟩ := hext
    have hu0 : d0.hasUnicode = false := hu hU
    have hb0 : d0.bytesValid = true := hb hU rfl
    simp only [Dest.setLength, hb0, if_pos]
    show takeBytes (utfLenOf dest.chars) d0.chars = dest.chars
    rw [ht]
    show takeBytes (utfLenOf dest.chars) (dest.chars ++ t) = dest.chars
    exact takeBytes_append dest.chars t

/-- Witness for the amended C1: byte-rep destination "a", template
"%d %d", single argument 1 — the call fails with the index error and the
destination's character sequence is exactly restored. -/
theorem appendFormat_error_rollback_witness :
    tclAppendFormatToObj false ⟨[97], false, true⟩ [37, 100, 32, 37, 100]
        [⟨[49], some 1, false⟩] (fun _ => [])
      = .ok (.err .badIndex ⟨[97], false, true⟩) ∧
    Dest.chars ⟨[97], false, true⟩ = Dest.chars ⟨[97], false, true⟩ :=
  ⟨rfl,
    appendFormat_error_rollback ⟨[97], false, true⟩ [37, 100, 32, 37, 100]
      [⟨[49], some 1, false⟩] (fun _ => []) rfl .badIndex
      ⟨[97], false, true⟩ rfl⟩

end Tcl
